import Mathlib

/-!
Shallow embedding of the Kuramoto oscillator simulation engine:
the `KuramotoSimulator` class of `js/kuramoto.js` and the `Experiments`
batch runner of `js/experiments.js`.

Modelling conventions:
* JavaScript numbers are modelled by real numbers.
* JavaScript's `%` operator (truncated remainder, sign of the dividend) is
  modelled by `jsMod`; `Math.round` (half-up rounding) agrees with Mathlib's
  `round`, which is used directly.
* Every call to `Math.random()` is replaced by an explicit argument holding
  the drawn value(s), one per use site, so all operations are deterministic
  functions of state and supplied randomness.
* The scratch array `dPhases` filled by `computeDerivatives` and consumed
  immediately by `step` is represented functionally by
  `computeDerivativesFor`, the same formula the code applies both to the
  current phases and to the RK4 stage vectors.
* The oscillator count `N` is set once at construction and never written
  afterwards by any method; it appears here as a type parameter of the
  state structure.
* The `while (diff > PI) diff -= TWO_PI; while (diff < -PI) diff += TWO_PI;`
  wrapping loops of `getWindingNumber` are expressed in closed form by
  `wrapToPi`; the loop-step equations `wrapToPi_eq_self`,
  `wrapToPi_high_step` and `wrapToPi_low_step` proved below certify that
  this closed form satisfies exactly the recurrences of the two loops.
-/

namespace Kuramoto

/-- Truncation toward zero, the rounding used by JavaScript's `%` operator. -/
noncomputable def jsTrunc (x : ℝ) : ℤ := if 0 ≤ x then ⌊x⌋ else -⌊-x⌋

/-- JavaScript remainder `a % b`, i.e. `a - b * trunc (a / b)`. -/
noncomputable def jsMod (a b : ℝ) : ℝ := a - b * jsTrunc (a / b)

/-- The constant `2 * Math.PI`. -/
noncomputable def TWO_PI : ℝ := 2 * Real.pi

/-- State of a `KuramotoSimulator` with `N` oscillators: per-oscillator
phases and natural frequencies, and the global coupling strength `K`. -/
structure KuramotoSimulator (N : ℕ) where
  phases : Fin N → ℝ
  frequencies : Fin N → ℝ
  K : ℝ

/-- Ring neighbour index `(i + 1) % N`. -/
def nextIdx {N : ℕ} (i : Fin N) : Fin N := ⟨(i.val + 1) % N, Nat.mod_lt _ i.pos⟩

/-- Ring neighbour index `(i - 1 + N) % N` (written here as `(i + (N-1)) % N`,
the same value for `0 ≤ i < N`). -/
def prevIdx {N : ℕ} (i : Fin N) : Fin N := ⟨(i.val + (N - 1)) % N, Nat.mod_lt _ i.pos⟩

/-- `((x % TWO_PI) + TWO_PI) % TWO_PI`, the body of `normalizePhases`. -/
noncomputable def normalizePhase (x : ℝ) : ℝ := jsMod (jsMod x TWO_PI + TWO_PI) TWO_PI

/-- `normalizePhases()`: renormalize every phase into `[0, 2π)`. -/
noncomputable def normalizePhases {N : ℕ} (sim : KuramotoSimulator N) :
    KuramotoSimulator N :=
  { sim with phases := fun i => normalizePhase (sim.phases i) }

/-- `setFrequencies(type)`.  The `random` policy draws one uniform `[0,1)`
value per oscillator, supplied in `rand`.  An unrecognized `type` falls
through the `switch` without a `default` case: no field is written. -/
noncomputable def setFrequencies {N : ℕ} (sim : KuramotoSimulator N)
    (type : String) (rand : Fin N → ℝ) : KuramotoSimulator N :=
  if type = "identical" then
    { sim with frequencies := fun _ => 1.0 }
  else if type = "random" then
    { sim with frequencies := fun i => 0.8 + rand i * 0.4 }
  else if type = "twoGroups" then
    { sim with frequencies := fun i => if (i.val : ℝ) < (N : ℝ) / 2 then 0.8 else 1.2 }
  else sim

/-- `setInitialPhases(type)`.  `rand` supplies one uniform `[0,1)` draw per
oscillator and `center` the `Math.random() * TWO_PI` center of `quasiSync`.
The trailing `this.normalizePhases()` runs on every path, including an
unrecognized `type` (whose `switch` writes nothing). -/
noncomputable def setInitialPhases {N : ℕ} (sim : KuramotoSimulator N)
    (type : String) (rand : Fin N → ℝ) (center : ℝ) : KuramotoSimulator N :=
  normalizePhases <|
    if type = "random" then
      { sim with phases := fun i => rand i * TWO_PI }
    else if type = "quasiSync" then
      { sim with phases := fun i => center + (rand i - 0.5) * 0.3 }
    else if type = "twisted1" then
      { sim with phases := fun i => TWO_PI * i.val / N }
    else if type = "twisted2" then
      { sim with phases := fun i => 4 * Real.pi * i.val / N }
    else sim

/-- `perturb(intensity)`: add `(Math.random() - 0.5) * 2 * intensity * Math.PI`
to every phase, then renormalize. -/
noncomputable def perturb {N : ℕ} (sim : KuramotoSimulator N)
    (intensity : ℝ) (rand : Fin N → ℝ) : KuramotoSimulator N :=
  normalizePhases
    { sim with phases := fun i => sim.phases i + (rand i - 0.5) * 2 * intensity * Real.pi }

/-- `computeDerivativesFor(phases, output)` (and `computeDerivatives()`, which
is this formula applied to the current phases):
`ωᵢ + (K/2) * (sin(θ_next - θᵢ) + sin(θ_prev - θᵢ))`. -/
noncomputable def computeDerivativesFor {N : ℕ} (sim : KuramotoSimulator N)
    (phases : Fin N → ℝ) : Fin N → ℝ :=
  fun i =>
    sim.frequencies i +
      sim.K / 2 *
        (Real.sin (phases (nextIdx i) - phases i) +
          Real.sin (phases (prevIdx i) - phases i))

/-- `step(dt)`: Euler step `phases[i] += dPhases[i] * dt`, then renormalize. -/
noncomputable def step {N : ℕ} (sim : KuramotoSimulator N) (dt : ℝ) :
    KuramotoSimulator N :=
  normalizePhases
    { sim with
        phases := fun i => sim.phases i + computeDerivativesFor sim sim.phases i * dt }

/-- `stepRK4(dt)`: classic four-stage Runge-Kutta step, then renormalize. -/
noncomputable def stepRK4 {N : ℕ} (sim : KuramotoSimulator N) (dt : ℝ) :
    KuramotoSimulator N :=
  let k1 := computeDerivativesFor sim sim.phases
  let k2 := computeDerivativesFor sim (fun i => sim.phases i + 0.5 * dt * k1 i)
  let k3 := computeDerivativesFor sim (fun i => sim.phases i + 0.5 * dt * k2 i)
  let k4 := computeDerivativesFor sim (fun i => sim.phases i + dt * k3 i)
  normalizePhases
    { sim with
        phases := fun i =>
          sim.phases i + dt / 6 * (k1 i + 2 * k2 i + 2 * k3 i + k4 i) }

/-- `setCoupling(K)`: `this.K = Math.max(0, K)`. -/
noncomputable def setCoupling {N : ℕ} (sim : KuramotoSimulator N) (K : ℝ) :
    KuramotoSimulator N :=
  { sim with K := max 0 K }

/-- `new KuramotoSimulator(N)`: zero-filled arrays, `K = 1.0`, then
`setFrequencies('identical')` and `setInitialPhases('random')` (the latter
drawing the values supplied in `rand`). -/
noncomputable def construct (N : ℕ) (rand : Fin N → ℝ) : KuramotoSimulator N :=
  setInitialPhases
    (setFrequencies ⟨fun _ => 0, fun _ => 0, 1.0⟩ "identical" fun _ => 0)
    "random" rand 0

/-- `n` successive calls of `step(dt)`. -/
noncomputable def iterStep {N : ℕ} (sim : KuramotoSimulator N) (dt : ℝ) :
    ℕ → KuramotoSimulator N
  | 0 => sim
  | n + 1 => step (iterStep sim dt n) dt

/-- `getOrderParameter()`: mean cosine and sine of the phases, returning
`(r, psi)` with `r = sqrt(meanCos² + meanSin²)` and `psi = atan2(meanSin,
meanCos)` (modelled by `Complex.arg`, which has the same value and range). -/
noncomputable def getOrderParameter {N : ℕ} (sim : KuramotoSimulator N) : ℝ × ℝ :=
  let sumCos := (∑ i : Fin N, Real.cos (sim.phases i)) / N
  let sumSin := (∑ i : Fin N, Real.sin (sim.phases i)) / N
  (Real.sqrt (sumCos * sumCos + sumSin * sumSin), Complex.arg ⟨sumCos, sumSin⟩)

/-- Closed form of the two wrapping loops of `getWindingNumber`:
`while (diff > PI) diff -= TWO_PI; while (diff < -PI) diff += TWO_PI;`.
The first branch subtracts `TWO_PI` exactly `⌈(d - π) / 2π⌉` times (the
number of iterations of the first loop), the second adds it
`⌈(-π - d) / 2π⌉` times; when `-π ≤ d ≤ π` neither loop runs. -/
noncomputable def wrapToPi (d : ℝ) : ℝ :=
  if Real.pi < d then d - TWO_PI * ⌈(d - Real.pi) / TWO_PI⌉
  else if d < -Real.pi then d + TWO_PI * ⌈(-Real.pi - d) / TWO_PI⌉
  else d

/-- `getWindingNumber()`: sum of neighbour phase differences wrapped into
`[-π, π]`, divided by `2π` and rounded to the nearest integer. -/
noncomputable def getWindingNumber {N : ℕ} (sim : KuramotoSimulator N) : ℤ :=
  round ((∑ i : Fin N, wrapToPi (sim.phases (nextIdx i) - sim.phases i)) / TWO_PI)

/-- `getPhaseVariance()`: circular variance `1 - r`. -/
noncomputable def getPhaseVariance {N : ℕ} (sim : KuramotoSimulator N) : ℝ :=
  1 - (getOrderParameter sim).1

/-- The labels returned by `classifyState()`.  The code returns formatted
strings; the `twisted` and `partiel` labels carry the interpolated data
(`q`, and `r` with `q`, respectively). -/
inductive StateLabel where
  | synchronized : StateLabel
  | twisted : ℤ → StateLabel
  | desynchronized : StateLabel
  | partiel : ℝ → ℤ → StateLabel

/-- The branching of `classifyState()` as a function of the measured `(r, q)`:
the if/else-if chain of the source in the same order. -/
noncomputable def classifyRQ (r : ℝ) (q : ℤ) : StateLabel :=
  if 0.9 < r then StateLabel.synchronized
  else if q.natAbs = 1 ∧ r < 0.5 then StateLabel.twisted q
  else if q.natAbs = 2 ∧ r < 0.3 then StateLabel.twisted q
  else if r < 0.3 then StateLabel.desynchronized
  else StateLabel.partiel r q

/-- `classifyState()`: read `r` and `q` from the current state, then branch. -/
noncomputable def classifyState {N : ℕ} (sim : KuramotoSimulator N) : StateLabel :=
  classifyRQ (getOrderParameter sim).1 (getWindingNumber sim)

/-- The result record accumulated by `Experiments.run`. -/
structure ExperimentResults where
  sync : ℕ
  twisted1 : ℕ
  twisted2 : ℕ
  other : ℕ
  total : ℕ

/-- One trial of `Experiments.run`: fresh ring, `setCoupling(K)`,
`setFrequencies('identical')`, `setInitialPhases('random')`, then `steps`
Euler steps with `dt = 0.02`.  `randC` holds the constructor's internal
random draws, `randP` the draws of the explicit `setInitialPhases` call. -/
noncomputable def trialOutcome (N : ℕ) (K : ℝ) (steps : ℕ)
    (randC randP : Fin N → ℝ) : KuramotoSimulator N :=
  iterStep
    (setInitialPhases
      (setFrequencies (setCoupling (construct N randC) K) "identical" fun _ => 0)
      "random" randP 0)
    0.02 steps

/-- The terminal classification of one trial: `sync` if `r > 0.85`, else
`twisted1` if `|q| == 1`, else `twisted2` if `|q| == 2`, else `other`. -/
noncomputable def recordTrial {N : ℕ} (sim : KuramotoSimulator N)
    (res : ExperimentResults) : ExperimentResults :=
  if 0.85 < (getOrderParameter sim).1 then { res with sync := res.sync + 1 }
  else if (getWindingNumber sim).natAbs = 1 then { res with twisted1 := res.twisted1 + 1 }
  else if (getWindingNumber sim).natAbs = 2 then { res with twisted2 := res.twisted2 + 1 }
  else { res with other := res.other + 1 }

/-- The trial loop of `Experiments.run`, trials numbered `0, ..., n - 1`,
each drawing fresh randomness from the streams `randC`, `randP`. -/
noncomputable def runLoop (K : ℝ) (N steps : ℕ) (randC randP : ℕ → Fin N → ℝ)
    (init : ExperimentResults) : ℕ → ExperimentResults
  | 0 => init
  | n + 1 =>
      recordTrial (trialOutcome N K steps (randC n) (randP n))
        (runLoop K N steps randC randP init n)

/-- `Experiments.run(numSims, K, N, steps)`: the counters start at zero with
`total = numSims`, then every trial increments exactly one counter. -/
noncomputable def Experiments.run (numSims : ℕ) (K : ℝ) (N steps : ℕ)
    (randC randP : ℕ → Fin N → ℝ) : ExperimentResults :=
  runLoop K N steps randC randP ⟨0, 0, 0, 0, numSims⟩ numSims

/-- States reachable from construction by any finite sequence of the
mutating operations of the engine. -/
inductive Reachable : {N : ℕ} → KuramotoSimulator N → Prop where
  | ofConstruct (N : ℕ) (rand : Fin N → ℝ) : Reachable (construct N rand)
  | ofSetFrequencies {N : ℕ} (sim : KuramotoSimulator N) (type : String)
      (rand : Fin N → ℝ) : Reachable sim → Reachable (setFrequencies sim type rand)
  | ofSetInitialPhases {N : ℕ} (sim : KuramotoSimulator N) (type : String)
      (rand : Fin N → ℝ) (center : ℝ) :
      Reachable sim → Reachable (setInitialPhases sim type rand center)
  | ofPerturb {N : ℕ} (sim : KuramotoSimulator N) (intensity : ℝ)
      (rand : Fin N → ℝ) : Reachable sim → Reachable (perturb sim intensity rand)
  | ofStep {N : ℕ} (sim : KuramotoSimulator N) (dt : ℝ) :
      Reachable sim → Reachable (step sim dt)
  | ofStepRK4 {N : ℕ} (sim : KuramotoSimulator N) (dt : ℝ) :
      Reachable sim → Reachable (stepRK4 sim dt)
  | ofSetCoupling {N : ℕ} (sim : KuramotoSimulator N) (K : ℝ) :
      Reachable sim → Reachable (setCoupling sim K)

/-- Concrete state with `N` oscillators, all phases `0`, frequencies `1`,
`K = 1`; used for witnesses and counterexamples. -/
noncomputable def zeroState (N : ℕ) : KuramotoSimulator N := ⟨fun _ => 0, fun _ => 1, 1⟩

/-- Concrete 4-oscillator state with phases `0, π/2, π, 3π/2`. -/
noncomputable def quadState : KuramotoSimulator 4 :=
  ⟨fun i =>
     if i.val = 0 then 0
     else if i.val = 1 then Real.pi / 2
     else if i.val = 2 then Real.pi
     else 3 * Real.pi / 2,
   fun _ => 1, 1⟩

/-- Concrete 2-oscillator state with zero coupling, phases `0`, frequencies `1`. -/
noncomputable def freeState : KuramotoSimulator 2 := ⟨fun _ => 0, fun _ => 1, 0⟩

/-! ## Basic arithmetic lemmas about the JavaScript remainder and the
phase normalization `((x % 2π) + 2π) % 2π` -/

theorem TWO_PI_eq : TWO_PI = 2 * Real.pi := rfl

theorem TWO_PI_pos : 0 < TWO_PI := Real.two_pi_pos

theorem jsMod_mem_of_nonneg {a b : ℝ} (hb : 0 < b) (ha : 0 ≤ a) :
    0 ≤ jsMod a b ∧ jsMod a b < b := by
  unfold jsMod jsTrunc
  rw [if_pos (div_nonneg ha hb.le)]
  have h1 : (⌊a / b⌋ : ℝ) * b ≤ a := (le_div_iff₀ hb).mp (Int.floor_le _)
  have h2 : a < ((⌊a / b⌋ : ℝ) + 1) * b := (div_lt_iff₀ hb).mp (Int.lt_floor_add_one _)
  constructor <;> nlinarith

theorem jsMod_mem_of_neg {a b : ℝ} (hb : 0 < b) (ha : a < 0) :
    -b < jsMod a b ∧ jsMod a b ≤ 0 := by
  unfold jsMod jsTrunc
  rw [if_neg (not_le.mpr (div_neg_of_neg_of_pos ha hb))]
  have hf1 : (⌊-(a / b)⌋ : ℝ) ≤ -a / b := by
    rw [← neg_div]; exact Int.floor_le _
  have hf2 : -a / b < (⌊-(a / b)⌋ : ℝ) + 1 := by
    rw [← neg_div]; exact Int.lt_floor_add_one _
  have h1 : (⌊-(a / b)⌋ : ℝ) * b ≤ -a := (le_div_iff₀ hb).mp hf1
  have h2 : -a < ((⌊-(a / b)⌋ : ℝ) + 1) * b := (div_lt_iff₀ hb).mp hf2
  push_cast
  constructor <;> nlinarith

theorem normalizePhase_mem (x : ℝ) : normalizePhase x ∈ Set.Ico 0 TWO_PI := by
  unfold normalizePhase
  have hy : 0 < jsMod x TWO_PI + TWO_PI := by
    rcases le_or_lt 0 x with hx | hx
    · linarith [(jsMod_mem_of_nonneg TWO_PI_pos hx).1, TWO_PI_pos]
    · linarith [(jsMod_mem_of_neg TWO_PI_pos hx).1]
  have h := jsMod_mem_of_nonneg TWO_PI_pos hy.le
  exact Set.mem_Ico.mpr ⟨h.1, h.2⟩

theorem normalizePhase_sub_int (x : ℝ) :
    ∃ k : ℤ, x - normalizePhase x = TWO_PI * k := by
  refine ⟨jsTrunc ((jsMod x TWO_PI + TWO_PI) / TWO_PI) + jsTrunc (x / TWO_PI) - 1, ?_⟩
  unfold normalizePhase jsMod
  push_cast
  ring

theorem normalizePhase_eq_of {x y : ℝ} (hy : y ∈ Set.Ico 0 TWO_PI)
    (h : ∃ k : ℤ, x - y = TWO_PI * k) : normalizePhase x = y := by
  obtain ⟨k, hk⟩ := h
  obtain ⟨m, hm⟩ := normalizePhase_sub_int x
  have hmem := normalizePhase_mem x
  rw [Set.mem_Ico] at hy hmem
  have hd : normalizePhase x - y = TWO_PI * ((k : ℝ) - (m : ℝ)) := by
    have := mul_sub TWO_PI (k : ℝ) (m : ℝ)
    linarith
  have hT := TWO_PI_pos
  have hub : ((k : ℝ) - (m : ℝ)) < 1 := by nlinarith [hy.1, hy.2, hmem.1, hmem.2]
  have hlb : (-1 : ℝ) < ((k : ℝ) - (m : ℝ)) := by nlinarith [hy.1, hy.2, hmem.1, hmem.2]
  have hkm : k - m = 0 := by
    have h1 : k - m < 1 := by exact_mod_cast (by push_cast; linarith : ((k - m : ℤ) : ℝ) < 1)
    have h2 : (-1 : ℤ) < k - m := by
      exact_mod_cast (by push_cast; linarith : (-1 : ℝ) < ((k - m : ℤ) : ℝ))
    omega
  have : ((k : ℝ) - (m : ℝ)) = 0 := by
    have := congrArg (fun z : ℤ => (z : ℝ)) hkm
    push_cast at this
    linarith
  rw [this, mul_zero] at hd
  linarith

theorem normalizePhase_eq_self {x : ℝ} (h : x ∈ Set.Ico 0 TWO_PI) :
    normalizePhase x = x :=
  normalizePhase_eq_of h ⟨0, by push_cast; ring⟩

theorem normalizePhase_add_shift (x y : ℝ) :
    normalizePhase (normalizePhase x + y) = normalizePhase (x + y) := by
  obtain ⟨m, hm⟩ := normalizePhase_sub_int x
  obtain ⟨k, hk⟩ := normalizePhase_sub_int (normalizePhase x + y)
  exact (normalizePhase_eq_of (normalizePhase_mem _)
    ⟨k + m, by push_cast at hm hk ⊢; linarith⟩).symm

/-! ## The `[-π, π]` wrapping of `getWindingNumber`

`wrapToPi_eq_self`, `wrapToPi_high_step` and `wrapToPi_low_step` show that
the closed form `wrapToPi` satisfies exactly the defining equations of the
two `while` loops in the source: no iteration when `-π ≤ d ≤ π`, one
subtraction of `2π` when `π < d`, one addition of `2π` when `d < -π`. -/

theorem wrapToPi_eq_self {d : ℝ} (h1 : -Real.pi ≤ d) (h2 : d ≤ Real.pi) :
    wrapToPi d = d := by
  unfold wrapToPi
  rw [if_neg (not_lt.mpr h2), if_neg (not_lt.mpr h1)]

theorem wrapToPi_high_step {d : ℝ} (h : Real.pi < d) :
    wrapToPi d = wrapToPi (d - TWO_PI) := by
  have hpi := Real.pi_pos
  have hT0 : TWO_PI ≠ 0 := ne_of_gt TWO_PI_pos
  rcases lt_or_le Real.pi (d - TWO_PI) with h2 | h2
  · unfold wrapToPi
    rw [if_pos h, if_pos h2]
    have harg : (d - Real.pi) / TWO_PI = (d - TWO_PI - Real.pi) / TWO_PI + 1 := by
      have he : d - Real.pi = (d - TWO_PI - Real.pi) + 1 * TWO_PI := by ring
      rw [he, add_div, mul_div_assoc, div_self hT0, mul_one]
    rw [harg, Int.ceil_add_one]
    push_cast
    ring
  · have h3 : -Real.pi ≤ d - TWO_PI := by
      rw [TWO_PI_eq]; linarith
    rw [wrapToPi_eq_self h3 h2]
    unfold wrapToPi
    rw [if_pos h]
    have hceil : ⌈(d - Real.pi) / TWO_PI⌉ = 1 := by
      rw [Int.ceil_eq_iff]
      push_cast
      constructor
      · have := div_pos (show 0 < d - Real.pi by linarith) TWO_PI_pos
        linarith
      · rw [div_le_one TWO_PI_pos]
        linarith
    rw [hceil]
    push_cast
    ring

theorem wrapToPi_low_step {d : ℝ} (h : d < -Real.pi) :
    wrapToPi d = wrapToPi (d + TWO_PI) := by
  have hpi := Real.pi_pos
  have hT0 : TWO_PI ≠ 0 := ne_of_gt TWO_PI_pos
  have hnot : ¬ Real.pi < d := by linarith
  rcases lt_or_le (d + TWO_PI) (-Real.pi) with h2 | h2
  · unfold wrapToPi
    rw [if_neg hnot, if_pos h, if_neg (by rw [TWO_PI_eq] at h2 ⊢; linarith),
      if_pos h2]
    have harg : (-Real.pi - d) / TWO_PI = (-Real.pi - (d + TWO_PI)) / TWO_PI + 1 := by
      have he : -Real.pi - d = (-Real.pi - (d + TWO_PI)) + 1 * TWO_PI := by ring
      rw [he, add_div, mul_div_assoc, div_self hT0, mul_one]
    rw [harg, Int.ceil_add_one]
    push_cast
    ring
  · have h3 : d + TWO_PI ≤ Real.pi := by
      rw [TWO_PI_eq]; linarith
    rw [wrapToPi_eq_self h2 h3]
    unfold wrapToPi
    rw [if_neg hnot, if_pos h]
    have hceil : ⌈(-Real.pi - d) / TWO_PI⌉ = 1 := by
      rw [Int.ceil_eq_iff]
      push_cast
      constructor
      · have := div_pos (show 0 < -Real.pi - d by linarith) TWO_PI_pos
        linarith
      · rw [div_le_one TWO_PI_pos]
        rw [TWO_PI_eq] at h2 ⊢
        linarith
    rw [hceil]
    push_cast
    ring

theorem wrapToPi_eq_of_equiv {d w : ℝ} (hw0 : 0 < w) (hwpi : w < Real.pi)
    (hd1 : -TWO_PI < d) (hd2 : d < TWO_PI) (k : ℤ) (hk : d = w + TWO_PI * k) :
    wrapToPi d = w := by
  have hpi := Real.pi_pos
  rw [TWO_PI_eq] at hd1 hd2 hk
  have hub : (k : ℝ) < 1 := by nlinarith
  have hlb : (-2 : ℝ) < (k : ℝ) := by nlinarith
  have hk1 : k < 1 := by exact_mod_cast hub
  have hk2 : (-2 : ℤ) < k := by exact_mod_cast hlb
  have hcase : k = -1 ∨ k = 0 := by omega
  rcases hcase with hk0 | hk0
  · subst hk0
    have hd : d = w - 2 * Real.pi := by push_cast at hk; linarith
    unfold wrapToPi
    rw [if_neg (by push_neg; nlinarith), if_pos (by nlinarith)]
    have hceil : ⌈(-Real.pi - d) / TWO_PI⌉ = 1 := by
      rw [Int.ceil_eq_iff]
      push_cast
      constructor
      · have := div_pos (show 0 < -Real.pi - d by nlinarith) TWO_PI_pos
        linarith
      · rw [div_le_one TWO_PI_pos, TWO_PI_eq]
        nlinarith
    rw [hceil]
    push_cast
    rw [TWO_PI_eq]
    nlinarith [hd]
  · subst hk0
    have hd : d = w := by push_cast at hk; linarith
    rw [hd]
    exact wrapToPi_eq_self (by linarith) hwpi.le

/-! ## Frame lemmas and branch evaluations -/

theorem setFrequencies_phases {N : ℕ} (sim : KuramotoSimulator N) (type : String)
    (rand : Fin N → ℝ) : (setFrequencies sim type rand).phases = sim.phases := by
  unfold setFrequencies
  split_ifs <;> rfl

theorem setFrequencies_K {N : ℕ} (sim : KuramotoSimulator N) (type : String)
    (rand : Fin N → ℝ) : (setFrequencies sim type rand).K = sim.K := by
  unfold setFrequencies
  split_ifs <;> rfl

theorem setInitialPhases_frequencies {N : ℕ} (sim : KuramotoSimulator N)
    (type : String) (rand : Fin N → ℝ) (center : ℝ) :
    (setInitialPhases sim type rand center).frequencies = sim.frequencies := by
  unfold setInitialPhases normalizePhases
  split_ifs <;> rfl

theorem setInitialPhases_K {N : ℕ} (sim : KuramotoSimulator N)
    (type : String) (rand : Fin N → ℝ) (center : ℝ) :
    (setInitialPhases sim type rand center).K = sim.K := by
  unfold setInitialPhases normalizePhases
  split_ifs <;> rfl

theorem setInitialPhases_phases {N : ℕ} (sim : KuramotoSimulator N)
    (type : String) (rand : Fin N → ℝ) (center : ℝ) (i : Fin N) :
    ∃ x : ℝ, (setInitialPhases sim type rand center).phases i = normalizePhase x := by
  unfold setInitialPhases normalizePhases
  split_ifs <;> exact ⟨_, rfl⟩

theorem setInitialPhases_twisted1 {N : ℕ} (sim : KuramotoSimulator N)
    (rand : Fin N → ℝ) (center : ℝ) (i : Fin N) :
    (setInitialPhases sim "twisted1" rand center).phases i =
      normalizePhase (TWO_PI * i.val / N) := rfl

theorem setInitialPhases_twisted2 {N : ℕ} (sim : KuramotoSimulator N)
    (rand : Fin N → ℝ) (center : ℝ) (i : Fin N) :
    (setInitialPhases sim "twisted2" rand center).phases i =
      normalizePhase (4 * Real.pi * i.val / N) := rfl

theorem step_phases {N : ℕ} (sim : KuramotoSimulator N) (dt : ℝ) (i : Fin N) :
    (step sim dt).phases i =
      normalizePhase (sim.phases i + computeDerivativesFor sim sim.phases i * dt) := rfl

theorem iterStep_K {N : ℕ} (sim : KuramotoSimulator N) (dt : ℝ) (n : ℕ) :
    (iterStep sim dt n).K = sim.K := by
  induction n with
  | zero => rfl
  | succ n ih => exact ih

theorem iterStep_frequencies {N : ℕ} (sim : KuramotoSimulator N) (dt : ℝ) (n : ℕ) :
    (iterStep sim dt n).frequencies = sim.frequencies := by
  induction n with
  | zero => rfl
  | succ n ih => exact ih

/-! ## Winding number of linearly twisted configurations -/

theorem nextIdx_val_of_lt {N : ℕ} (i : Fin N) (h : i.val + 1 < N) :
    (nextIdx i).val = i.val + 1 := by
  unfold nextIdx
  exact Nat.mod_eq_of_lt h

theorem nextIdx_val_of_last {N : ℕ} (i : Fin N) (h : i.val + 1 = N) :
    (nextIdx i).val = 0 := by
  show (i.val + 1) % N = 0
  rw [h]
  exact Nat.mod_self N

theorem getWindingNumber_linear {N : ℕ} (sim : KuramotoSimulator N) (w : ℝ) (m : ℤ)
    (hw0 : 0 < w) (hwpi : w < Real.pi)
    (hph : ∀ i : Fin N, sim.phases i = normalizePhase (w * i.val))
    (hm : w * N = TWO_PI * m) :
    getWindingNumber sim = m := by
  have hwrap : ∀ i : Fin N,
      wrapToPi (sim.phases (nextIdx i) - sim.phases i) = w := by
    intro i
    obtain ⟨ka, hka⟩ := normalizePhase_sub_int (w * i.val)
    obtain ⟨kb, hkb⟩ := normalizePhase_sub_int (w * (nextIdx i).val)
    have hmema := normalizePhase_mem (w * i.val)
    have hmemb := normalizePhase_mem (w * (nextIdx i).val)
    rw [Set.mem_Ico] at hmema hmemb
    rw [hph i, hph (nextIdx i)]
    rcases lt_or_le (i.val + 1) N with hi | hi
    · refine wrapToPi_eq_of_equiv hw0 hwpi (by linarith [hmema.2, hmemb.1])
        (by linarith [hmema.1, hmemb.2]) (ka - kb) ?_
      have hval : ((nextIdx i).val : ℝ) = (i.val : ℝ) + 1 := by
        exact_mod_cast congrArg (Nat.cast : ℕ → ℝ) (nextIdx_val_of_lt i hi)
      push_cast at hka hkb ⊢
      nlinarith [hka, hkb, hval]
    · have hlast : i.val + 1 = N := by omega
      have hval : ((nextIdx i).val : ℝ) = 0 := by
        exact_mod_cast congrArg (Nat.cast : ℕ → ℝ) (nextIdx_val_of_last i hlast)
      have hiv : (i.val : ℝ) = (N : ℝ) - 1 := by
        have : ((i.val : ℕ) : ℝ) + 1 = (N : ℝ) := by exact_mod_cast hlast
        linarith
      refine wrapToPi_eq_of_equiv hw0 hwpi (by linarith [hmema.2, hmemb.1])
        (by linarith [hmema.1, hmemb.2]) (ka - kb - m) ?_
      push_cast at hka hkb ⊢
      nlinarith [hka, hkb, hval, hiv, hm]
  unfold getWindingNumber
  rw [Finset.sum_congr rfl fun i _ => hwrap i]
  rw [Finset.sum_const, Finset.card_univ, Fintype.card_fin, nsmul_eq_mul]
  rw [show (N : ℝ) * w = TWO_PI * m by rw [← hm]; ring]
  rw [mul_div_cancel_left₀ _ (ne_of_gt TWO_PI_pos)]
  exact round_intCast m

/-! ## Claim theorems -/

/-- Claim C1: the normalization `((x % 2π) + 2π) % 2π` maps every real
(including negatives) into `[0, 2π)`, and in every reachable state of the
simulator (after construction and any finite sequence of mutating calls)
every phase lies in `[0, 2π)`. -/
theorem claim_phases_invariant :
    (∀ x : ℝ, normalizePhase x ∈ Set.Ico 0 TWO_PI) ∧
    ∀ (N : ℕ) (sim : KuramotoSimulator N), Reachable sim →
      ∀ i : Fin N, sim.phases i ∈ Set.Ico 0 TWO_PI := by
  refine ⟨normalizePhase_mem, fun N sim h => ?_⟩
  induction h with
  | ofConstruct rand =>
      exact fun i => normalizePhase_mem (rand i * TWO_PI)
  | ofSetFrequencies sim type rand h ih =>
      intro i
      rw [setFrequencies_phases]
      exact ih i
  | ofSetInitialPhases sim type rand center h ih =>
      intro i
      obtain ⟨x, hx⟩ := setInitialPhases_phases sim type rand center i
      rw [hx]
      exact normalizePhase_mem x
  | ofPerturb sim intensity rand h ih =>
      exact fun i => normalizePhase_mem _
  | ofStep sim dt h ih =>
      exact fun i => normalizePhase_mem _
  | ofStepRK4 sim dt h ih =>
      exact fun i => normalizePhase_mem _
  | ofSetCoupling sim K h ih =>
      exact fun i => ih i

/-- Witness for C1 at a concrete reachable state. -/
theorem claim_phases_invariant_witness :
    (construct 3 fun _ => 0).phases ⟨0, by norm_num⟩ ∈ Set.Ico 0 TWO_PI :=
  claim_phases_invariant.2 3 (construct 3 fun _ => 0)
    (Reachable.ofConstruct 3 fun _ => 0) ⟨0, by norm_num⟩

/-- Claim C10: `step`, `stepRK4` and `perturb` mutate only the phases: the
frequency vector and the coupling strength `K` are unchanged (the oscillator
count `N` is a type parameter of the embedding and unchangeable by
construction). -/
theorem claim_frame_effects {N : ℕ} (sim : KuramotoSimulator N)
    (dt intensity : ℝ) (rand : Fin N → ℝ) :
    ((step sim dt).frequencies = sim.frequencies ∧ (step sim dt).K = sim.K) ∧
    ((stepRK4 sim dt).frequencies = sim.frequencies ∧ (stepRK4 sim dt).K = sim.K) ∧
    ((perturb sim intensity rand).frequencies = sim.frequencies ∧
      (perturb sim intensity rand).K = sim.K) :=
  ⟨⟨rfl, rfl⟩, ⟨rfl, rfl⟩, rfl, rfl⟩

/-- Witness for C10 at a concrete state. -/
theorem claim_frame_effects_witness :
    ((step (zeroState 2) 1).frequencies = (zeroState 2).frequencies ∧
      (step (zeroState 2) 1).K = (zeroState 2).K) ∧
    ((stepRK4 (zeroState 2) 1).frequencies = (zeroState 2).frequencies ∧
      (stepRK4 (zeroState 2) 1).K = (zeroState 2).K) ∧
    ((perturb (zeroState 2) 1 fun _ => 0).frequencies = (zeroState 2).frequencies ∧
      (perturb (zeroState 2) 1 fun _ => 0).K = (zeroState 2).K) :=
  claim_frame_effects (zeroState 2) 1 1 fun _ => 0

/-- Claim C7: with `K = 0` and phases inside `[0, 2π)` (the data-model
invariant, which holds in every reachable state), after `n` Euler steps of
size `dt` each phase equals `(θ_i(0) + ω_i · n · dt) mod 2π`: each
oscillator evolves independently by the closed-form linear solution. -/
theorem claim_K0_closed_form {N : ℕ} (sim : KuramotoSimulator N) (hK : sim.K = 0)
    (hnorm : ∀ i, sim.phases i ∈ Set.Ico 0 TWO_PI) (dt : ℝ) (n : ℕ) (i : Fin N) :
    (iterStep sim dt n).phases i =
      normalizePhase (sim.phases i + sim.frequencies i * n * dt) := by
  induction n with
  | zero =>
      show sim.phases i = _
      rw [Nat.cast_zero, mul_zero, zero_mul, add_zero]
      exact (normalizePhase_eq_self (hnorm i)).symm
  | succ n ih =>
      show (step (iterStep sim dt n) dt).phases i = _
      rw [step_phases, ih]
      unfold computeDerivativesFor
      rw [iterStep_K, hK, iterStep_frequencies]
      rw [zero_div, zero_mul, add_zero]
      rw [normalizePhase_add_shift]
      congr 1
      push_cast
      ring

/-- Witness for C7 at a concrete zero-coupling state. -/
theorem claim_K0_closed_form_witness :
    (iterStep freeState 1 2).phases ⟨0, by norm_num⟩ =
      normalizePhase (freeState.phases ⟨0, by norm_num⟩ +
        freeState.frequencies ⟨0, by norm_num⟩ * (2 : ℕ) * 1) :=
  claim_K0_closed_form freeState rfl
    (fun i => Set.mem_Ico.mpr ⟨le_rfl, TWO_PI_pos⟩) 1 2 ⟨0, by norm_num⟩

/-- Claim C4 (amended): immediately after `setInitialPhases('twisted1')` the
winding number is exactly 1 for every N ≥ 4, and immediately after
`setInitialPhases('twisted2')` it is exactly 2 for every N ≥ 5.  (At N = 4
the twisted2 neighbour differences are exactly ±π, the wrapping loops leave
them unchanged, and the measured winding number is 0 — see the
counterexample theorem.) -/
theorem claim_winding_twisted {N : ℕ} (sim : KuramotoSimulator N)
    (rand : Fin N → ℝ) (center : ℝ) :
    (4 ≤ N → getWindingNumber (setInitialPhases sim "twisted1" rand center) = 1) ∧
    (5 ≤ N → getWindingNumber (setInitialPhases sim "twisted2" rand center) = 2) := by
  have hpi := Real.pi_pos
  constructor
  · intro hN
    have hNR : (4 : ℝ) ≤ (N : ℝ) := by exact_mod_cast hN
    have hN0 : (0 : ℝ) < N := by linarith
    apply getWindingNumber_linear _ (TWO_PI / N) 1
    · exact div_pos TWO_PI_pos hN0
    · rw [TWO_PI_eq, div_lt_iff₀ hN0]
      nlinarith
    · intro i
      rw [setInitialPhases_twisted1]
      congr 1
      ring
    · rw [div_mul_cancel₀ _ (ne_of_gt hN0)]
      push_cast
      ring
  · intro hN
    have hNR : (5 : ℝ) ≤ (N : ℝ) := by exact_mod_cast hN
    have hN0 : (0 : ℝ) < N := by linarith
    apply getWindingNumber_linear _ (4 * Real.pi / N) 2
    · exact div_pos (by nlinarith) hN0
    · rw [div_lt_iff₀ hN0]
      nlinarith
    · intro i
      rw [setInitialPhases_twisted2]
      congr 1
      ring
    · rw [div_mul_cancel₀ _ (ne_of_gt hN0), TWO_PI_eq]
      push_cast
      ring

/-- Witness for C4 at N = 5. -/
theorem claim_winding_twisted_witness :
    getWindingNumber (setInitialPhases (zeroState 5) "twisted1" (fun _ => 0) 0) = 1 ∧
    getWindingNumber (setInitialPhases (zeroState 5) "twisted2" (fun _ => 0) 0) = 2 :=
  ⟨(claim_winding_twisted (zeroState 5) (fun _ => 0) 0).1 (by norm_num),
   (claim_winding_twisted (zeroState 5) (fun _ => 0) 0).2 (by norm_num)⟩

/-- Claim C4 counterexample: at N = 4 (which the claim includes), the
`twisted2` initialization has normalized phases `0, π, 0, π`; every
neighbour difference is exactly `π` or `-π`, the wrapping loops do not move
them, the wrapped differences cancel, and `getWindingNumber` returns 0,
not 2. -/
theorem claim_winding_twisted2_four_ce :
    getWindingNumber (setInitialPhases (zeroState 4) "twisted2" (fun _ => 0) 0) = 0 ∧
    getWindingNumber (setInitialPhases (zeroState 4) "twisted2" (fun _ => 0) 0) ≠ 2 := by
  have hpi := Real.pi_pos
  have hmem0 : (0 : ℝ) ∈ Set.Ico 0 TWO_PI := Set.mem_Ico.mpr ⟨le_rfl, TWO_PI_pos⟩
  have hmempi : Real.pi ∈ Set.Ico 0 TWO_PI :=
    Set.mem_Ico.mpr ⟨hpi.le, by rw [TWO_PI_eq]; linarith⟩
  have harg := setInitialPhases_twisted2 (zeroState 4) (fun _ => (0:ℝ)) 0
  have q0 : (setInitialPhases (zeroState 4) "twisted2" (fun _ => (0:ℝ)) 0).phases 0 = 0 := by
    rw [harg 0, show 4 * Real.pi * (((0 : Fin 4)).val : ℝ) / ((4:ℕ) : ℝ) = 0 from by
      push_cast [show ((0 : Fin 4)).val = 0 from rfl]; ring]
    exact normalizePhase_eq_self hmem0
  have q1 : (setInitialPhases (zeroState 4) "twisted2" (fun _ => (0:ℝ)) 0).phases 1 = Real.pi := by
    rw [harg 1, show 4 * Real.pi * (((1 : Fin 4)).val : ℝ) / ((4:ℕ) : ℝ) = Real.pi from by
      push_cast [show ((1 : Fin 4)).val = 1 from rfl]; ring]
    exact normalizePhase_eq_self hmempi
  have q2 : (setInitialPhases (zeroState 4) "twisted2" (fun _ => (0:ℝ)) 0).phases 2 = 0 := by
    rw [harg 2, show 4 * Real.pi * (((2 : Fin 4)).val : ℝ) / ((4:ℕ) : ℝ) = 2 * Real.pi from by
      push_cast [show ((2 : Fin 4)).val = 2 from rfl]; ring]
    exact normalizePhase_eq_of hmem0 ⟨1, by rw [TWO_PI_eq]; push_cast; ring⟩
  have q3 : (setInitialPhases (zeroState 4) "twisted2" (fun _ => (0:ℝ)) 0).phases 3 = Real.pi := by
    rw [harg 3, show 4 * Real.pi * (((3 : Fin 4)).val : ℝ) / ((4:ℕ) : ℝ) = 3 * Real.pi from by
      push_cast [show ((3 : Fin 4)).val = 3 from rfl]; ring]
    exact normalizePhase_eq_of hmempi ⟨1, by rw [TWO_PI_eq]; push_cast; ring⟩
  have e0 : nextIdx (0 : Fin 4) = 1 := rfl
  have e1 : nextIdx (1 : Fin 4) = 2 := rfl
  have e2 : nextIdx (2 : Fin 4) = 3 := rfl
  have e3 : nextIdx (3 : Fin 4) = 0 := rfl
  have wa : wrapToPi Real.pi = Real.pi := wrapToPi_eq_self (by linarith) le_rfl
  have wb : wrapToPi (-Real.pi) = -Real.pi := wrapToPi_eq_self le_rfl (by linarith)
  have h0 : getWindingNumber (setInitialPhases (zeroState 4) "twisted2" (fun _ => (0:ℝ)) 0) = 0 := by
    unfold getWindingNumber
    rw [Fin.sum_univ_four, e0, e1, e2, e3, q0, q1, q2, q3, sub_zero, zero_sub, wa, wb]
    rw [show Real.pi + -Real.pi + Real.pi + -Real.pi = 0 from by ring]
    rw [zero_div]
    exact round_zero
  exact ⟨h0, by rw [h0]; decide⟩

/-- Claim C3 (amended): construction performs no validation and never
fails: for every N — including the degenerate N < 2 — it produces a ring
with `K = 1.0`, identical frequencies (all `ω_i = 1.0`) and random phases
`rand i * 2π` normalized into `[0, 2π)`. -/
theorem claim_construct_total (N : ℕ) (rand : Fin N → ℝ) :
    (construct N rand).K = 1.0 ∧
    (∀ i, (construct N rand).frequencies i = 1.0) ∧
    (∀ i, (construct N rand).phases i = normalizePhase (rand i * TWO_PI)) ∧
    (∀ i, (construct N rand).phases i ∈ Set.Ico 0 TWO_PI) :=
  ⟨rfl, fun _ => rfl, fun _ => rfl, fun _ => normalizePhase_mem _⟩

/-- Witness for C3 at N = 2. -/
theorem claim_construct_total_witness :
    (construct 2 fun _ => 0).K = 1.0 ∧
    (∀ i, (construct 2 fun _ => 0).frequencies i = 1.0) ∧
    (∀ i, (construct 2 fun _ => 0).phases i = normalizePhase ((0:ℝ) * TWO_PI)) ∧
    (∀ i, (construct 2 fun _ => 0).phases i ∈ Set.Ico 0 TWO_PI) :=
  claim_construct_total 2 fun _ => 0

/-- Claim C3 counterexample: N = 1 < 2 is accepted: construction succeeds
and silently produces a degenerate one-oscillator ring with the standard
initialization, rather than failing fast. -/
theorem claim_construct_one_ce :
    (construct 1 fun _ => 0).K = 1.0 ∧
    (construct 1 fun _ => 0).frequencies ⟨0, by norm_num⟩ = 1.0 ∧
    (construct 1 fun _ => 0).phases ⟨0, by norm_num⟩ = 0 := by
  refine ⟨rfl, rfl, ?_⟩
  show normalizePhase ((0:ℝ) * TWO_PI) = 0
  rw [zero_mul]
  exact normalizePhase_eq_self (Set.mem_Ico.mpr ⟨le_rfl, TWO_PI_pos⟩)

/-- Claim C5 (amended): `setFrequencies('twoGroups')` gives frequency 0.8
to exactly the oscillators with `2·i < N` — i.e. the first `⌈N/2⌉`
oscillators, since the code compares `i < N/2` in real arithmetic — and 1.2
to all the rest, leaving phases and K unchanged.  For odd N this is one
more oscillator than the claimed "first `⌊N/2⌋`" (see counterexample). -/
theorem claim_twoGroups {N : ℕ} (sim : KuramotoSimulator N) (rand : Fin N → ℝ) :
    (∀ i : Fin N, (setFrequencies sim "twoGroups" rand).frequencies i =
      if 2 * i.val < N then 0.8 else 1.2) ∧
    (setFrequencies sim "twoGroups" rand).phases = sim.phases ∧
    (setFrequencies sim "twoGroups" rand).K = sim.K := by
  refine ⟨fun i => ?_, setFrequencies_phases _ _ _, setFrequencies_K _ _ _⟩
  show (if ((i.val : ℕ) : ℝ) < ((N : ℕ) : ℝ) / 2 then (0.8:ℝ) else 1.2) = _
  by_cases h : 2 * i.val < N
  · have hr : ((i.val : ℕ) : ℝ) < ((N : ℕ) : ℝ) / 2 := by
      have h2 : ((2 * i.val : ℕ) : ℝ) < ((N : ℕ) : ℝ) := by exact_mod_cast h
      push_cast at h2 ⊢
      linarith
    rw [if_pos hr, if_pos h]
  · have hr : ¬ ((i.val : ℕ) : ℝ) < ((N : ℕ) : ℝ) / 2 := by
      have h2 : ((N : ℕ) : ℝ) ≤ ((2 * i.val : ℕ) : ℝ) := by
        exact_mod_cast not_lt.mp h
      push_cast at h2 ⊢
      push_neg
      linarith
    rw [if_neg hr, if_neg h]

/-- Witness for C5 at N = 2. -/
theorem claim_twoGroups_witness :
    (∀ i : Fin 2, (setFrequencies (zeroState 2) "twoGroups" fun _ => 0).frequencies i =
      if 2 * i.val < 2 then (0.8:ℝ) else 1.2) ∧
    (setFrequencies (zeroState 2) "twoGroups" fun _ => 0).phases = (zeroState 2).phases ∧
    (setFrequencies (zeroState 2) "twoGroups" fun _ => 0).K = (zeroState 2).K :=
  claim_twoGroups (zeroState 2) fun _ => 0

/-- Claim C5 counterexample: for N = 3 the claim says only the first
`⌊3/2⌋ = 1` oscillator gets 0.8, so index 1 should get 1.2; the code
compares `1 < 3/2 = 1.5` in real arithmetic, so index 1 gets 0.8. -/
theorem claim_twoGroups_odd_ce :
    (setFrequencies (zeroState 3) "twoGroups" fun _ => 0).frequencies ⟨1, by norm_num⟩ = 0.8 ∧
    (0.8 : ℝ) ≠ 1.2 := by
  constructor
  · show (if ((1:ℕ) : ℝ) < ((3:ℕ) : ℝ) / 2 then (0.8:ℝ) else 1.2) = 0.8
    rw [if_pos (by norm_num : ((1:ℕ) : ℝ) < ((3:ℕ) : ℝ) / 2)]
  · norm_num

/-- Claim C6 (amended): an unrecognized policy name is a silent no-op, not
a reported error: `setFrequencies` returns the state unchanged, and
`setInitialPhases` only runs the trailing renormalization, which is the
identity on states whose phases already lie in `[0, 2π)` (every reachable
state). -/
theorem claim_unknown_policy {N : ℕ} (sim : KuramotoSimulator N) (type : String)
    (rand : Fin N → ℝ) (center : ℝ)
    (hf1 : type ≠ "identical") (hf2 : type ≠ "random") (hf3 : type ≠ "twoGroups")
    (hp1 : type ≠ "quasiSync") (hp2 : type ≠ "twisted1") (hp3 : type ≠ "twisted2")
    (hnorm : ∀ i, sim.phases i ∈ Set.Ico 0 TWO_PI) :
    setFrequencies sim type rand = sim ∧
    setInitialPhases sim type rand center = sim := by
  constructor
  · unfold setFrequencies
    rw [if_neg hf1, if_neg hf2, if_neg hf3]
  · unfold setInitialPhases
    rw [if_neg hf2, if_neg hp1, if_neg hp2, if_neg hp3]
    unfold normalizePhases
    cases sim with
    | mk p f k =>
        simp only [KuramotoSimulator.mk.injEq]
        refine ⟨funext fun i => ?_, trivial, trivial⟩
        exact normalizePhase_eq_self (hnorm i)

/-- Witness for C6 with the unrecognized policy name "unknown". -/
theorem claim_unknown_policy_witness :
    setFrequencies (zeroState 3) "unknown" (fun _ => 0) = zeroState 3 ∧
    setInitialPhases (zeroState 3) "unknown" (fun _ => 0) 0 = zeroState 3 :=
  claim_unknown_policy (zeroState 3) "unknown" (fun _ => 0) 0 (by decide) (by decide)
    (by decide) (by decide) (by decide) (by decide)
    (fun _ => Set.mem_Ico.mpr ⟨le_rfl, TWO_PI_pos⟩)

/-- Claim C6 counterexample: the policy name "bogus" is silently ignored:
both setters return the state unchanged and nothing fails. -/
theorem claim_unknown_policy_ce :
    setFrequencies (zeroState 2) "bogus" (fun _ => 0) = zeroState 2 ∧
    setInitialPhases (zeroState 2) "bogus" (fun _ => 0) 0 = zeroState 2 := by
  constructor
  · rfl
  · show normalizePhases (zeroState 2) = zeroState 2
    unfold normalizePhases zeroState
    simp only [KuramotoSimulator.mk.injEq]
    refine ⟨funext fun i => ?_, trivial, trivial⟩
    exact normalizePhase_eq_self (Set.mem_Ico.mpr ⟨le_rfl, TWO_PI_pos⟩)

/-- Claim C9: `classifyState()` is a pure deterministic function of the
current `(r, q)`, evaluated with fixed precedence: `r > 0.9` always yields
the synchronized label regardless of the measured winding number;
otherwise twisted with `|q| = 1` requires `r < 0.5`, twisted with `|q| = 2`
requires `r < 0.3`, desynchronized requires `r < 0.3` with `|q| ∉ {1, 2}`,
and every remaining case is partial synchrony; re-evaluating on identical
`(r, q)` yields the identical label. -/
theorem claim_classify_pure {N : ℕ} (sim : KuramotoSimulator N) :
    classifyState sim =
      classifyRQ (getOrderParameter sim).1 (getWindingNumber sim) ∧
    ((0.9 : ℝ) < (getOrderParameter sim).1 →
      classifyState sim = StateLabel.synchronized) ∧
    (∀ (r : ℝ) (q : ℤ), ¬ (0.9:ℝ) < r → q.natAbs = 1 → r < 0.5 →
      classifyRQ r q = StateLabel.twisted q) ∧
    (∀ (r : ℝ) (q : ℤ), ¬ (0.9:ℝ) < r → q.natAbs = 2 → r < 0.3 →
      classifyRQ r q = StateLabel.twisted q) ∧
    (∀ (r : ℝ) (q : ℤ), ¬ (0.9:ℝ) < r → q.natAbs ≠ 1 → q.natAbs ≠ 2 → r < 0.3 →
      classifyRQ r q = StateLabel.desynchronized) ∧
    (∀ (r : ℝ) (q : ℤ), ¬ (0.9:ℝ) < r → ¬ (q.natAbs = 1 ∧ r < 0.5) →
      ¬ (q.natAbs = 2 ∧ r < 0.3) → ¬ r < 0.3 →
      classifyRQ r q = StateLabel.partiel r q) ∧
    ∀ (M : ℕ) (sim2 : KuramotoSimulator M),
      (getOrderParameter sim2).1 = (getOrderParameter sim).1 →
      getWindingNumber sim2 = getWindingNumber sim →
      classifyState sim2 = classifyState sim := by
  refine ⟨rfl, ?_, ?_, ?_, ?_, ?_, ?_⟩
  · intro h
    unfold classifyState classifyRQ
    rw [if_pos h]
  · intro r q h1 h2 h3
    unfold classifyRQ
    rw [if_neg h1, if_pos ⟨h2, h3⟩]
  · intro r q h1 h2 h3
    unfold classifyRQ
    rw [if_neg h1, if_neg (show ¬ (q.natAbs = 1 ∧ r < 0.5) by simp [h2]),
      if_pos ⟨h2, h3⟩]
  · intro r q h1 h2 h3 h4
    unfold classifyRQ
    rw [if_neg h1, if_neg (show ¬ (q.natAbs = 1 ∧ r < 0.5) by simp [h2]),
      if_neg (show ¬ (q.natAbs = 2 ∧ r < 0.3) by simp [h3]), if_pos h4]
  · intro r q h1 h2 h3 h4
    unfold classifyRQ
    rw [if_neg h1, if_neg h2, if_neg h3, if_neg h4]
  · intro M sim2 hr hq
    unfold classifyState
    rw [hr, hq]

/-- Witness for C9 at a concrete state. -/
theorem claim_classify_pure_witness :
    classifyState (zeroState 2) =
      classifyRQ (getOrderParameter (zeroState 2)).1 (getWindingNumber (zeroState 2)) :=
  (claim_classify_pure (zeroState 2)).1

theorem recordTrial_counts {N : ℕ} (sim : KuramotoSimulator N)
    (res : ExperimentResults) :
    (recordTrial sim res).sync + (recordTrial sim res).twisted1 +
      (recordTrial sim res).twisted2 + (recordTrial sim res).other =
      res.sync + res.twisted1 + res.twisted2 + res.other + 1 ∧
    (recordTrial sim res).total = res.total := by
  unfold recordTrial
  split_ifs <;> exact ⟨by dsimp; omega, rfl⟩

theorem runLoop_counts (K : ℝ) (N steps : ℕ) (randC randP : ℕ → Fin N → ℝ)
    (init : ExperimentResults) (n : ℕ) :
    (runLoop K N steps randC randP init n).sync +
      (runLoop K N steps randC randP init n).twisted1 +
      (runLoop K N steps randC randP init n).twisted2 +
      (runLoop K N steps randC randP init n).other =
      init.sync + init.twisted1 + init.twisted2 + init.other + n ∧
    (runLoop K N steps randC randP init n).total = init.total := by
  induction n with
  | zero => exact ⟨rfl, rfl⟩
  | succ n ih =>
      have h := recordTrial_counts (trialOutcome N K steps (randC n) (randP n))
        (runLoop K N steps randC randP init n)
      rw [show runLoop K N steps randC randP init (n + 1) =
            recordTrial (trialOutcome N K steps (randC n) (randP n))
              (runLoop K N steps randC randP init n) from rfl]
      refine ⟨?_, h.2.trans ih.2⟩
      rw [h.1, ih.1]
      omega

/-- Claim C2: `Experiments.run(numTrials, K, N, steps)` returns four
natural-number (hence non-negative) counters summing exactly to
`total = numTrials`, where each trial builds a fresh ring, sets coupling K,
identical frequencies and random phases, runs exactly `steps` Euler steps
with dt = 0.02, and increments exactly one counter: `sync` iff the final
r > 0.85, else `twisted1` iff |q| = 1, else `twisted2` iff |q| = 2, else
`other`. -/
theorem claim_experiment_counts (numSims : ℕ) (K : ℝ) (N steps : ℕ)
    (randC randP : ℕ → Fin N → ℝ) :
    (Experiments.run numSims K N steps randC randP).sync +
      (Experiments.run numSims K N steps randC randP).twisted1 +
      (Experiments.run numSims K N steps randC randP).twisted2 +
      (Experiments.run numSims K N steps randC randP).other =
      (Experiments.run numSims K N steps randC randP).total ∧
    (Experiments.run numSims K N steps randC randP).total = numSims := by
  have h := runLoop_counts K N steps randC randP ⟨0, 0, 0, 0, numSims⟩ numSims
  unfold Experiments.run
  refine ⟨?_, h.2⟩
  rw [h.1, h.2]
  dsimp
  omega

/-- Witness for C2 at concrete arguments. -/
theorem claim_experiment_counts_witness :
    (Experiments.run 3 2 4 1 (fun _ _ => 0) (fun _ _ => 0)).sync +
      (Experiments.run 3 2 4 1 (fun _ _ => 0) (fun _ _ => 0)).twisted1 +
      (Experiments.run 3 2 4 1 (fun _ _ => 0) (fun _ _ => 0)).twisted2 +
      (Experiments.run 3 2 4 1 (fun _ _ => 0) (fun _ _ => 0)).other =
      (Experiments.run 3 2 4 1 (fun _ _ => 0) (fun _ _ => 0)).total ∧
    (Experiments.run 3 2 4 1 (fun _ _ => 0) (fun _ _ => 0)).total = 3 :=
  claim_experiment_counts 3 2 4 1 (fun _ _ => 0) (fun _ _ => 0)

theorem orderParameter_sq_identity {N : ℕ} (sim : KuramotoSimulator N) :
    (∑ i : Fin N, Real.cos (sim.phases i)) * (∑ i : Fin N, Real.cos (sim.phases i)) +
      (∑ i : Fin N, Real.sin (sim.phases i)) * (∑ i : Fin N, Real.sin (sim.phases i)) =
      ∑ i : Fin N, ∑ j : Fin N, Real.cos (sim.phases i - sim.phases j) := by
  rw [Finset.sum_mul_sum, Finset.sum_mul_sum, ← Finset.sum_add_distrib]
  refine Finset.sum_congr rfl fun i _ => ?_
  rw [← Finset.sum_add_distrib]
  refine Finset.sum_congr rfl fun j _ => ?_
  rw [Real.cos_sub]

theorem cos_double_sum_le {N : ℕ} (sim : KuramotoSimulator N) :
    ∑ i : Fin N, ∑ j : Fin N, Real.cos (sim.phases i - sim.phases j) ≤ (N : ℝ) * N := by
  calc ∑ i : Fin N, ∑ j : Fin N, Real.cos (sim.phases i - sim.phases j)
      ≤ ∑ _i : Fin N, ∑ _j : Fin N, (1:ℝ) :=
        Finset.sum_le_sum fun i _ => Finset.sum_le_sum fun j _ => Real.cos_le_one _
    _ = (N : ℝ) * N := by
        simp [Finset.sum_const, Finset.card_univ, nsmul_eq_mul]

/-- Claim C8: for every N ≥ 1 and configuration the order parameter
`r = sqrt(meanCos² + meanSin²)` lies in `[0, 1]`; with the phases inside
`[0, 2π)` (the data-model invariant), `r = 1` holds exactly when all phases
are equal; and for N = 4 with phases `{0, π/2, π, 3π/2}` the contributions
cancel exactly and `r = 0`. -/
theorem claim_order_parameter {N : ℕ} (sim : KuramotoSimulator N)
    (hN : 1 ≤ N) (hnorm : ∀ i, sim.phases i ∈ Set.Ico 0 TWO_PI) :
    (getOrderParameter sim).1 ∈ Set.Icc (0:ℝ) 1 ∧
    ((getOrderParameter sim).1 = 1 ↔ ∀ i j : Fin N, sim.phases i = sim.phases j) ∧
    (getOrderParameter quadState).1 = 0 := by
  have hNn : 0 < N := hN
  have hN0 : (0:ℝ) < N := by exact_mod_cast hNn
  have hNne : (N:ℝ) ≠ 0 := ne_of_gt hN0
  have key := orderParameter_sq_identity sim
  have hle := cos_double_sum_le sim
  have hr_def : (getOrderParameter sim).1 =
      Real.sqrt (((∑ i : Fin N, Real.cos (sim.phases i)) / N) *
          ((∑ i : Fin N, Real.cos (sim.phases i)) / N) +
        ((∑ i : Fin N, Real.sin (sim.phases i)) / N) *
          ((∑ i : Fin N, Real.sin (sim.phases i)) / N)) := rfl
  have hfrac : ((∑ i : Fin N, Real.cos (sim.phases i)) / N) *
        ((∑ i : Fin N, Real.cos (sim.phases i)) / N) +
      ((∑ i : Fin N, Real.sin (sim.phases i)) / N) *
        ((∑ i : Fin N, Real.sin (sim.phases i)) / N) =
      (∑ i : Fin N, ∑ j : Fin N, Real.cos (sim.phases i - sim.phases j)) /
        ((N:ℝ) * N) := by
    rw [← key]
    field_simp
  have hA1 : ((∑ i : Fin N, Real.cos (sim.phases i)) / N) *
        ((∑ i : Fin N, Real.cos (sim.phases i)) / N) +
      ((∑ i : Fin N, Real.sin (sim.phases i)) / N) *
        ((∑ i : Fin N, Real.sin (sim.phases i)) / N) ≤ 1 := by
    rw [hfrac, div_le_one (by positivity)]
    exact hle
  have hrange : (getOrderParameter sim).1 ∈ Set.Icc (0:ℝ) 1 := by
    rw [hr_def]
    exact Set.mem_Icc.mpr ⟨Real.sqrt_nonneg _,
      (Real.sqrt_le_sqrt hA1).trans_eq Real.sqrt_one⟩
  -- the concrete N = 4 cancellation
  have h32 : (3:ℝ) * Real.pi / 2 = Real.pi + Real.pi / 2 := by ring
  have hc32 : Real.cos (3 * Real.pi / 2) = 0 := by
    rw [h32, Real.cos_add, Real.cos_pi, Real.sin_pi, Real.cos_pi_div_two,
      Real.sin_pi_div_two]
    ring
  have hs32 : Real.sin (3 * Real.pi / 2) = -1 := by
    rw [h32, Real.sin_add, Real.cos_pi, Real.sin_pi, Real.cos_pi_div_two,
      Real.sin_pi_div_two]
    ring
  have e0 : quadState.phases 0 = 0 := rfl
  have e1 : quadState.phases 1 = Real.pi / 2 := rfl
  have e2 : quadState.phases 2 = Real.pi := rfl
  have e3 : quadState.phases 3 = 3 * Real.pi / 2 := rfl
  have hq : (getOrderParameter quadState).1 = 0 := by
    unfold getOrderParameter
    dsimp only
    rw [Fin.sum_univ_four, Fin.sum_univ_four, e0, e1, e2, e3, Real.cos_zero,
      Real.cos_pi_div_two, Real.cos_pi, hc32, Real.sin_zero, Real.sin_pi_div_two,
      Real.sin_pi, hs32]
    norm_num [Real.sqrt_zero]
  refine ⟨hrange, ?_, hq⟩
  constructor
  · intro h1
    rw [hr_def, Real.sqrt_eq_one] at h1
    have hDS : ∑ i : Fin N, ∑ j : Fin N, Real.cos (sim.phases i - sim.phases j) =
        (N:ℝ) * N := by
      rw [hfrac] at h1
      field_simp at h1
      linarith
    have hzero : ∑ i : Fin N, ∑ j : Fin N,
        (1 - Real.cos (sim.phases i - sim.phases j)) = 0 := by
      have hsplit : ∀ i : Fin N, ∑ j : Fin N,
          (1 - Real.cos (sim.phases i - sim.phases j)) =
          (∑ _j : Fin N, (1:ℝ)) -
            ∑ j : Fin N, Real.cos (sim.phases i - sim.phases j) :=
        fun i => Finset.sum_sub_distrib
      rw [Finset.sum_congr rfl fun i _ => hsplit i, Finset.sum_sub_distrib, hDS]
      simp [Finset.sum_const, Finset.card_univ, nsmul_eq_mul]
    intro i j
    have hnn : ∀ a b : Fin N, (0:ℝ) ≤ 1 - Real.cos (sim.phases a - sim.phases b) :=
      fun a b => by linarith [Real.cos_le_one (sim.phases a - sim.phases b)]
    have houter := (Finset.sum_eq_zero_iff_of_nonneg
      (fun a _ => Finset.sum_nonneg (fun b _ => hnn a b))).mp hzero i
      (Finset.mem_univ i)
    have hinner := (Finset.sum_eq_zero_iff_of_nonneg
      (fun b _ => hnn i b)).mp houter j (Finset.mem_univ j)
    have hcos : Real.cos (sim.phases i - sim.phases j) = 1 := by linarith
    have hbi := hnorm i
    have hbj := hnorm j
    rw [Set.mem_Ico, TWO_PI_eq] at hbi hbj
    have := (Real.cos_eq_one_iff_of_lt_of_lt
      (by linarith [hbi.1, hbj.2]) (by linarith [hbi.2, hbj.1])).mp hcos
    linarith
  · intro hall
    have i0 : Fin N := ⟨0, hNn⟩
    have hCc : ∑ i : Fin N, Real.cos (sim.phases i) =
        (N:ℝ) * Real.cos (sim.phases i0) := by
      rw [Finset.sum_congr rfl fun i _ => congrArg Real.cos (hall i i0)]
      simp [Finset.sum_const, Finset.card_univ, nsmul_eq_mul]
    have hSs : ∑ i : Fin N, Real.sin (sim.phases i) =
        (N:ℝ) * Real.sin (sim.phases i0) := by
      rw [Finset.sum_congr rfl fun i _ => congrArg Real.sin (hall i i0)]
      simp [Finset.sum_const, Finset.card_univ, nsmul_eq_mul]
    rw [hr_def, hCc, hSs, mul_div_cancel_left₀ _ hNne, mul_div_cancel_left₀ _ hNne]
    rw [show Real.cos (sim.phases i0) * Real.cos (sim.phases i0) +
        Real.sin (sim.phases i0) * Real.sin (sim.phases i0) = 1 from by
      nlinarith [Real.sin_sq_add_cos_sq (sim.phases i0)]]
    exact Real.sqrt_one

/-- Witness for C8 at the concrete 4-oscillator cancelling state. -/
theorem claim_order_parameter_witness :
    (getOrderParameter quadState).1 ∈ Set.Icc (0:ℝ) 1 ∧
    ((getOrderParameter quadState).1 = 1 ↔
      ∀ i j : Fin 4, quadState.phases i = quadState.phases j) ∧
    (getOrderParameter quadState).1 = 0 := by
  have hpi := Real.pi_pos
  refine claim_order_parameter quadState (by norm_num) fun i => ?_
  fin_cases i
  · show (0:ℝ) ∈ Set.Ico 0 TWO_PI
    exact Set.mem_Ico.mpr ⟨le_rfl, TWO_PI_pos⟩
  · show Real.pi / 2 ∈ Set.Ico 0 TWO_PI
    exact Set.mem_Ico.mpr ⟨by linarith, by rw [TWO_PI_eq]; linarith⟩
  · show Real.pi ∈ Set.Ico 0 TWO_PI
    exact Set.mem_Ico.mpr ⟨hpi.le, by rw [TWO_PI_eq]; linarith⟩
  · show 3 * Real.pi / 2 ∈ Set.Ico 0 TWO_PI
    exact Set.mem_Ico.mpr ⟨by linarith, by rw [TWO_PI_eq]; linarith⟩

end Kuramoto
